import Mathlib

/-!
Shallow embedding of the coco configuration controller: the hierarchical
state store (src/coco/state.py), the host blocklist (src/coco/blocklist.py),
the queue/rendezvous protocol of the core module (src/coco/core.py) and the
wait endpoint (src/coco/wait.py), together with proofs about them.
-/

set_option maxHeartbeats 1000000

/-- JSON-shaped values: the hierarchical state tree of src/coco/state.py.
Mapping nodes are insertion-ordered association lists, as Python dicts are. -/
inductive JVal where
  | null : JVal
  | bool : Bool → JVal
  | int : Int → JVal
  | str : String → JVal
  | arr : List JVal → JVal
  | obj : List (String × JVal) → JVal
deriving Repr

mutual

def JVal.decEq : (a b : JVal) → Decidable (a = b)
  | .null, .null => isTrue rfl
  | .bool x, .bool y =>
    if h : x = y then isTrue (by rw [h]) else isFalse (by intro hh; cases hh; exact h rfl)
  | .int x, .int y =>
    if h : x = y then isTrue (by rw [h]) else isFalse (by intro hh; cases hh; exact h rfl)
  | .str x, .str y =>
    if h : x = y then isTrue (by rw [h]) else isFalse (by intro hh; cases hh; exact h rfl)
  | .arr xs, .arr ys =>
    match JVal.decEqList xs ys with
    | isTrue h => isTrue (by rw [h])
    | isFalse h => isFalse (by intro hh; cases hh; exact h rfl)
  | .obj xs, .obj ys =>
    match JVal.decEqPairs xs ys with
    | isTrue h => isTrue (by rw [h])
    | isFalse h => isFalse (by intro hh; cases hh; exact h rfl)
  | .null, .bool _ | .null, .int _ | .null, .str _ | .null, .arr _ | .null, .obj _ =>
    isFalse nofun
  | .bool _, .null | .bool _, .int _ | .bool _, .str _ | .bool _, .arr _ | .bool _, .obj _ =>
    isFalse nofun
  | .int _, .null | .int _, .bool _ | .int _, .str _ | .int _, .arr _ | .int _, .obj _ =>
    isFalse nofun
  | .str _, .null | .str _, .bool _ | .str _, .int _ | .str _, .arr _ | .str _, .obj _ =>
    isFalse nofun
  | .arr _, .null | .arr _, .bool _ | .arr _, .int _ | .arr _, .str _ | .arr _, .obj _ =>
    isFalse nofun
  | .obj _, .null | .obj _, .bool _ | .obj _, .int _ | .obj _, .str _ | .obj _, .arr _ =>
    isFalse nofun

def JVal.decEqList : (xs ys : List JVal) → Decidable (xs = ys)
  | [], [] => isTrue rfl
  | x :: xs, y :: ys =>
    match JVal.decEq x y with
    | isTrue h1 =>
      match JVal.decEqList xs ys with
      | isTrue h2 => isTrue (by rw [h1, h2])
      | isFalse h => isFalse (by intro hh; injection hh with h1 h2; exact h h2)
    | isFalse h => isFalse (by intro hh; injection hh with h1 h2; exact h h1)
  | [], _ :: _ => isFalse nofun
  | _ :: _, [] => isFalse nofun

def JVal.decEqPairs : (xs ys : List (String × JVal)) → Decidable (xs = ys)
  | [], [] => isTrue rfl
  | (k1, v1) :: xs, (k2, v2) :: ys =>
    if hk : k1 = k2 then
      match JVal.decEq v1 v2 with
      | isTrue h1 =>
        match JVal.decEqPairs xs ys with
        | isTrue h2 => isTrue (by rw [hk, h1, h2])
        | isFalse h => isFalse (by intro hh; injection hh with h1 h2; exact h h2)
      | isFalse h =>
        isFalse (by
          intro hh; injection hh with h1 h2
          exact h (congrArg Prod.snd h1))
    else
      isFalse (by
        intro hh; injection hh with h1 h2
        exact hk (congrArg Prod.fst h1))
  | [], _ :: _ => isFalse nofun
  | _ :: _, [] => isFalse nofun

end

instance : DecidableEq JVal := JVal.decEq

/-- Python exceptions raised by the state-store code paths modelled here. -/
inductive PyErr where
  | keyError (k : String)
  | typeError
  | runtimeError (msg : String)
deriving Repr, DecidableEq

deriving instance DecidableEq for Except

/-- Python dict lookup on an insertion-ordered association list. -/
def lookupKey {α : Type} (l : List (String × α)) (k : String) : Option α :=
  match l with
  | [] => none
  | (k1, v) :: rest => if k1 = k then some v else lookupKey rest k

/-- Python dict assignment d[k] = v: replace in place when the key exists,
append at the end of the insertion order when it does not. -/
def setKey {α : Type} (l : List (String × α)) (k : String) (v : α) : List (String × α) :=
  match l with
  | [] => [(k, v)]
  | (k1, v1) :: rest => if k1 = k then (k, v) :: rest else (k1, v1) :: setKey rest k v

/-- Python subscript element[key] with a string key: dict lookup raising
KeyError when the key is missing; every non-dict value (scalar, list,
string) raises TypeError on a string subscript. -/
def getItem (v : JVal) (k : String) : Except PyErr JVal :=
  match v with
  | .obj l =>
    match lookupKey l k with
    | some c => .ok c
    | none => .error (.keyError k)
  | _ => .error .typeError

/-- Python str.split("/") on the character list of the path. -/
def splitSlashChars : List Char → List String
  | [] => [""]
  | c :: rest =>
    if c = '/' then "" :: splitSlashChars rest
    else
      match splitSlashChars rest with
      | [] => [String.mk [c]]
      | s :: ss => String.mk (c :: s.data) :: ss

/-- Python path.split("/"). -/
def splitSlash (s : String) : List String := splitSlashChars s.data

/-- The loop of State._find (src/coco/state.py:188): walk the components in
order, skipping empty ones. -/
def findGo (v : JVal) (ps : List String) : Except PyErr JVal :=
  match ps with
  | [] => .ok v
  | k :: rest =>
    if k = "" then findGo v rest
    else
      match getItem v k with
      | .ok c => findGo c rest
      | .error e => .error e

/-- State._find (src/coco/state.py:171): the root for None, "" or "/";
otherwise split on "/" and walk, skipping empty components. -/
def State.find (state : JVal) (path : Option String) : Except PyErr JVal :=
  match path with
  | none => .ok state
  | some p =>
    if p = "" ∨ p = "/" then .ok state
    else findGo state (splitSlash p)

/-- State.read with name=None (src/coco/state.py:80): returns _find(path). -/
def State.read (state : JVal) (path : String) : Except PyErr JVal :=
  State.find state (some path)

/-- The combined effect of the State._find_new walk (src/coco/state.py:212,
which walks every component but the last, empty components included) and the
assignment element[name] = value performed by State.write: the in-place dict
mutation becomes a functional update along the walked path. -/
def setAtPath (v : JVal) (ps : List String) (name : String) (value : JVal) : Except PyErr JVal :=
  match ps with
  | [] =>
    match v with
    | .obj l => .ok (.obj (setKey l name value))
    | _ => .error .typeError
  | k :: rest =>
    match v with
    | .obj l =>
      match lookupKey l k with
      | some c =>
        match setAtPath c rest name value with
        | .ok c2 => .ok (.obj (setKey l k c2))
        | .error e => .error e
      | none => .error (.keyError k)
    | _ => .error .typeError

/-- State.write with name=None on the in-memory tree (src/coco/state.py:56):
_find_new rejects the root paths, then the last component of the split path
(even when it is empty) becomes the key assigned in the parent dict. -/
def State.writeTree (state : JVal) (path : String) (value : JVal) : Except PyErr JVal :=
  if path = "" ∨ path = "/" then
    .error (.runtimeError "Cannot create new state entry at root level.")
  else
    match splitSlash path with
    | [] => .error (.runtimeError "unreachable: split never returns an empty list")
    | p :: ps => setAtPath state (p :: ps).dropLast ((p :: ps).getLast (List.cons_ne_nil p ps)) value

/-- In-memory tree plus the content of the persisted state file.
PersistentState (src/coco/util.py, not among the sources) is modelled from
the spec: each successful mutation atomically writes the full tree to the
storage file, which afterwards decodes to exactly the in-memory state. -/
structure StateS where
  state : JVal
  storage : JVal
deriving Repr, DecidableEq

/-- State.write with name=None (src/coco/state.py:56) on the full state
object: on success the persisted storage is updated to the new tree, on a
raise nothing changes. -/
def State.write (s : StateS) (path : String) (value : JVal) : Except PyErr StateS :=
  match State.writeTree s.state path value with
  | .ok t => .ok ⟨t, t⟩
  | .error e => .error e

theorem lookupKey_setKey_self {α : Type} (l : List (String × α)) (k : String) (v : α) :
    lookupKey (setKey l k v) k = some v := by
  induction l with
  | nil => simp [setKey, lookupKey]
  | cons p rest ih =>
    obtain ⟨k1, v1⟩ := p
    by_cases h : k1 = k
    · simp [setKey, h, lookupKey]
    · simp [setKey, h, lookupKey, ih]

theorem splitSlashChars_ne_nil (cs : List Char) : splitSlashChars cs ≠ [] := by
  induction cs with
  | nil => simp [splitSlashChars]
  | cons c rest ih =>
    by_cases h : c = '/'
    · simp [splitSlashChars, h]
    · simp only [splitSlashChars, h, if_false]
      match hm : splitSlashChars rest with
      | [] => simp
      | s :: ss => simp

theorem splitSlash_ne_nil (s : String) : splitSlash s ≠ [] := splitSlashChars_ne_nil s.data

/-- After a successful setAtPath along components that findGo will not skip,
walking the extended path reads back the written value. -/
theorem findGo_setAtPath (ps : List String) (name : String) (t t2 value : JVal)
    (hps : ∀ c ∈ ps, c ≠ "") (hname : name ≠ "")
    (h : setAtPath t ps name value = .ok t2) :
    findGo t2 (ps ++ [name]) = .ok value := by
  induction ps generalizing t t2 with
  | nil =>
    match t with
    | .obj l =>
      simp only [setAtPath] at h
      cases h
      simp [findGo, hname, getItem, lookupKey_setKey_self]
    | .null | .bool _ | .int _ | .str _ | .arr _ => simp [setAtPath] at h
  | cons k rest ih =>
    match t with
    | .obj l =>
      simp only [setAtPath] at h
      match hl : lookupKey l k with
      | some c =>
        simp only [hl] at h
        match hs : setAtPath c rest name value with
        | .ok c2 =>
          simp only [hs] at h
          cases h
          have hk : k ≠ "" := hps k (List.mem_cons_self k rest)
          simp only [List.cons_append, findGo, if_neg hk, getItem, lookupKey_setKey_self]
          exact ih c c2 (fun c hc => hps c (List.mem_cons_of_mem k hc)) hs
        | .error e => simp only [hs] at h; exact Except.noConfusion h
      | none => simp only [hl] at h; exact Except.noConfusion h
    | .null | .bool _ | .int _ | .str _ | .arr _ => simp [setAtPath] at h

theorem findGo_append (v : JVal) (xs ys : List String) :
    findGo v (xs ++ ys) =
      match findGo v xs with
      | .ok w => findGo w ys
      | .error e => .error e := by
  induction xs generalizing v with
  | nil => simp [findGo]
  | cons k rest ih =>
    by_cases hk : k = ""
    · simp only [List.cons_append, findGo, if_pos hk]
      exact ih v
    · simp only [List.cons_append, findGo, if_neg hk]
      match getItem v k with
      | .ok c => exact ih c
      | .error e => rfl

/-- Successful writeTree followed by a read of the same path, when every
component of the path is non-empty. -/
theorem writeTree_read (t : JVal) (path : String) (value t2 : JVal)
    (hne : ∀ c ∈ splitSlash path, c ≠ "")
    (hw : State.writeTree t path value = .ok t2) :
    State.read t2 path = .ok value := by
  unfold State.writeTree at hw
  by_cases hroot : path = "" ∨ path = "/"
  · simp only [if_pos hroot] at hw
    exact Except.noConfusion hw
  · simp only [if_neg hroot] at hw
    match hsp : splitSlash path with
    | [] => exact absurd hsp (splitSlash_ne_nil path)
    | p :: ps =>
      simp only [hsp] at hw
      have hlast : (p :: ps).getLast (List.cons_ne_nil p ps) ≠ "" := by
        apply hne
        rw [hsp]
        exact List.getLast_mem (List.cons_ne_nil p ps)
      have hdrop : ∀ c ∈ (p :: ps).dropLast, c ≠ "" := by
        intro c hc
        apply hne
        rw [hsp]
        exact (List.dropLast_sublist (p :: ps)).subset hc
      have hfind := findGo_setAtPath _ _ _ _ _ hdrop hlast hw
      rw [List.dropLast_append_getLast (List.cons_ne_nil p ps)] at hfind
      unfold State.read State.find
      simp only [if_neg hroot, hsp]
      exact hfind

/-- C1 holds after restriction to paths all of whose slash-separated
components are non-empty: a successful write (with no explicit name)
followed by a read of the same path returns the written value, and the
persisted storage holds exactly the in-memory tree. -/
theorem c1_write_read_roundtrip (s : StateS) (path : String) (value : JVal) (s2 : StateS)
    (hne : ∀ c ∈ splitSlash path, c ≠ "")
    (hw : State.write s path value = .ok s2) :
    State.read s2.state path = .ok value ∧ s2.storage = s2.state := by
  unfold State.write at hw
  match hwt : State.writeTree s.state path value with
  | .ok t =>
    simp only [hwt] at hw
    cases hw
    exact ⟨writeTree_read _ _ _ _ hne hwt, rfl⟩
  | .error e =>
    simp only [hwt] at hw
    exact Except.noConfusion hw

/-- C1 as stated is false: with the tree containing an empty mapping at
"a", the write to path "a/" succeeds (storing the value under the key ""),
but the immediately following read of "a/" does not return the value. -/
theorem c1_counterexample :
    State.write ⟨JVal.obj [("a", JVal.obj [])], JVal.obj [("a", JVal.obj [])]⟩ "a/" (JVal.int 5)
        = Except.ok ⟨JVal.obj [("a", JVal.obj [("", JVal.int 5)])],
            JVal.obj [("a", JVal.obj [("", JVal.int 5)])]⟩
    ∧ State.read (JVal.obj [("a", JVal.obj [("", JVal.int 5)])]) "a/"
        ≠ Except.ok (JVal.int 5) := by
  exact ⟨by decide, by decide⟩

theorem c1_write_read_roundtrip_witness :
    State.read (JVal.obj [("a", JVal.obj [("b", JVal.int 7)])]) "a/b" = Except.ok (JVal.int 7) :=
  (c1_write_read_roundtrip ⟨JVal.obj [("a", JVal.obj [])], JVal.obj []⟩ "a/b" (JVal.int 7)
      ⟨JVal.obj [("a", JVal.obj [("b", JVal.int 7)])], JVal.obj [("a", JVal.obj [("b", JVal.int 7)])]⟩
      (by decide) (by decide)).1

theorem lookupKey_sizeOf (l : List (String × JVal)) (k : String) (v : JVal)
    (h : lookupKey l k = some v) : sizeOf v < sizeOf (JVal.obj l) := by
  induction l with
  | nil => simp [lookupKey] at h
  | cons p rest ih =>
    obtain ⟨k1, v1⟩ := p
    simp only [lookupKey] at h
    by_cases hk : k1 = k
    · rw [if_pos hk] at h
      injection h with h
      subst h
      simp only [JVal.obj.sizeOf_spec, List.cons.sizeOf_spec, Prod.mk.sizeOf_spec]
      omega
    · rw [if_neg hk] at h
      have := ih h
      simp only [JVal.obj.sizeOf_spec, List.cons.sizeOf_spec, Prod.mk.sizeOf_spec] at this ⊢
      omega

/-- A successful setAtPath with the empty string as the final key leaves the
value under the key "" of the parent mapping reached by walking ps. -/
theorem findGo_setAtPath_parent (ps : List String) (t t2 value : JVal)
    (hps : ∀ c ∈ ps, c ≠ "") (h : setAtPath t ps "" value = .ok t2) :
    ∃ l, findGo t2 ps = .ok (.obj l) ∧ lookupKey l "" = some value := by
  induction ps generalizing t t2 with
  | nil =>
    match t with
    | .obj l =>
      simp only [setAtPath] at h
      cases h
      exact ⟨setKey l "" value, rfl, lookupKey_setKey_self l "" value⟩
    | .null | .bool _ | .int _ | .str _ | .arr _ => simp [setAtPath] at h
  | cons k rest ih =>
    match t with
    | .obj l =>
      simp only [setAtPath] at h
      match hl : lookupKey l k with
      | some c =>
        simp only [hl] at h
        match hs : setAtPath c rest "" value with
        | .ok c2 =>
          simp only [hs] at h
          cases h
          have hk : k ≠ "" := hps k (List.mem_cons_self k rest)
          obtain ⟨l2, hfind, hlook⟩ := ih c c2 (fun c hc => hps c (List.mem_cons_of_mem k hc)) hs
          refine ⟨l2, ?_, hlook⟩
          simp only [findGo, if_neg hk, getItem, lookupKey_setKey_self]
          exact hfind
        | .error e => simp only [hs] at h; exact Except.noConfusion h
      | none => simp only [hl] at h; exact Except.noConfusion h
    | .null | .bool _ | .int _ | .str _ | .arr _ => simp [setAtPath] at h

/-- C10: path resolution for reading skips empty components while writing
takes the final component even when empty. For a path ending in "/" whose
other components are non-empty and whose parent exists (the write
succeeds), the write stores the value under the key "" of the parent
mapping, while the immediately following read returns the parent mapping
itself — never the written value — so the write-then-read round trip fails
on such paths (and holds when all components are non-empty, by the
companion round-trip theorem). -/
theorem c10_trailing_slash (s : StateS) (qs : List String) (path : String) (value : JVal)
    (s2 : StateS) (hsp : splitSlash path = qs ++ [""]) (hqs : ∀ c ∈ qs, c ≠ "")
    (hw : State.write s path value = .ok s2) :
    ∃ l, State.read s2.state path = .ok (JVal.obj l) ∧ lookupKey l "" = some value
      ∧ State.read s2.state path ≠ .ok value := by
  unfold State.write at hw
  match hwt : State.writeTree s.state path value with
  | .error e => simp only [hwt] at hw; exact Except.noConfusion hw
  | .ok t =>
    simp only [hwt] at hw
    cases hw
    unfold State.writeTree at hwt
    by_cases hroot : path = "" ∨ path = "/"
    · simp only [if_pos hroot] at hwt
      exact Except.noConfusion hwt
    · simp only [if_neg hroot] at hwt
      match hq : qs ++ [""] with
      | [] => exact absurd hq (by simp)
      | p :: ps =>
        rw [hq] at hsp
        simp only [hsp] at hwt
        have hdrop : (p :: ps).dropLast = qs := by
          rw [← hq, List.dropLast_concat]
        have hlast : (p :: ps).getLast (List.cons_ne_nil p ps) = "" := by
          have h2 : (qs ++ [""]).getLast? = some "" := List.getLast?_concat qs
          rw [hq, List.getLast?_eq_getLast_of_ne_nil (List.cons_ne_nil p ps)] at h2
          injection h2 with h2
        rw [hdrop, hlast] at hwt
        obtain ⟨l, hfind, hlook⟩ := findGo_setAtPath_parent qs s.state t value hqs hwt
        have hread : State.read t path = Except.ok (JVal.obj l) := by
          unfold State.read State.find
          simp only [if_neg hroot, hsp, ← hq]
          rw [findGo_append, hfind]
          simp [findGo]
        refine ⟨l, hread, hlook, ?_⟩
        rw [hread]
        intro hcontra
        injection hcontra with hcontra
        have := lookupKey_sizeOf l "" value hlook
        rw [hcontra] at this
        omega

theorem c10_trailing_slash_witness :
    ∃ l, State.read (JVal.obj [("a", JVal.obj [("", JVal.int 5)])]) "a/"
        = Except.ok (JVal.obj l)
      ∧ lookupKey l "" = some (JVal.int 5)
      ∧ State.read (JVal.obj [("a", JVal.obj [("", JVal.int 5)])]) "a/"
        ≠ Except.ok (JVal.int 5) :=
  c10_trailing_slash ⟨JVal.obj [("a", JVal.obj [])], JVal.obj []⟩ ["a"] "a/" (JVal.int 5)
    ⟨JVal.obj [("a", JVal.obj [("", JVal.int 5)])], JVal.obj [("a", JVal.obj [("", JVal.int 5)])]⟩
    (by decide) (by decide) (by decide)

/-- Is this value a mapping node? -/
def JVal.isObj : JVal → Bool
  | .obj _ => true
  | _ => false

/-- Walk every component of a path in order (no skipping), purely reading. -/
def strictFind (v : JVal) (ps : List String) : Except PyErr JVal :=
  match ps with
  | [] => .ok v
  | k :: rest =>
    match getItem v k with
    | .ok c => strictFind c rest
    | .error e => .error e

/-- The loop of State.find_or_create (src/coco/state.py:236) with the
in-place mutation made explicit: the first result is the tree including
every mapping node the loop created before finishing or raising, the second
is the element reached, or the RuntimeError that a TypeError is turned
into. A missing key (KeyError) creates an empty dict at the end of the
parent's insertion order and continues inside it. -/
def focAux (v : JVal) (ps : List String) : JVal × Except PyErr JVal :=
  match ps with
  | [] => (v, .ok v)
  | k :: rest =>
    match v with
    | .obj l =>
      match lookupKey l k with
      | some c =>
        match focAux c rest with
        | (c2, r) => (.obj (setKey l k c2), r)
      | none =>
        match focAux (JVal.obj []) rest with
        | (c2, r) => (.obj (setKey l k c2), r)
    | _ => (v, .error (.runtimeError "coco.state: non-mapping traversed"))

/-- State.find_or_create (src/coco/state.py:216): the root paths return the
whole tree without persisting; otherwise the loop runs and, on success
only, the resulting tree is persisted. A raise skips the persist but keeps
whatever the loop mutated in memory. -/
def State.findOrCreate (s : StateS) (path : String) : StateS × Except PyErr JVal :=
  if path = "" ∨ path = "/" then (s, .ok s.state)
  else
    match focAux s.state (splitSlash path) with
    | (t2, .ok e) => (⟨t2, t2⟩, .ok e)
    | (t2, .error err) => (⟨t2, s.storage⟩, .error err)

/-- Starting from a freshly created empty mapping node, the loop never
raises: every further step creates another empty mapping. -/
theorem focAux_fresh_ok (rest : List String) :
    ∃ c2 e, focAux (JVal.obj []) rest = (c2, .ok e) := by
  induction rest with
  | nil => exact ⟨JVal.obj [], JVal.obj [], rfl⟩
  | cons k rest ih =>
    obtain ⟨c2, e, ih⟩ := ih
    refine ⟨.obj (setKey [] k c2), e, ?_⟩
    simp only [focAux, lookupKey, ih]

theorem setKey_lookupKey_self {α : Type} (l : List (String × α)) (k : String) (c : α)
    (h : lookupKey l k = some c) : setKey l k c = l := by
  induction l with
  | nil => simp [lookupKey] at h
  | cons p rest ih =>
    obtain ⟨k1, v1⟩ := p
    simp only [lookupKey] at h
    by_cases hk : k1 = k
    · rw [if_pos hk] at h
      injection h with h
      subst hk h
      simp [setKey]
    · rw [if_neg hk] at h
      simp [setKey, hk, ih h]

/-- A raising find_or_create loop has not mutated the tree: the raise can
only happen before any node was created. -/
theorem focAux_error_unchanged (ps : List String) (t t2 : JVal) (e : PyErr)
    (h : focAux t ps = (t2, .error e)) : t2 = t := by
  induction ps generalizing t t2 with
  | nil => injection h with h1 h2; exact Except.noConfusion h2
  | cons k rest ih =>
    match t with
    | .obj l =>
      simp only [focAux] at h
      match hl : lookupKey l k with
      | some c =>
        simp only [hl] at h
        match hf : focAux c rest with
        | (c2, r) =>
          simp only [hf] at h
          injection h with h1 h2
          subst h2
          have hc : c2 = c := ih c c2 hf
          rw [hc, setKey_lookupKey_self l k c hl] at h1
          exact h1.symm
      | none =>
        simp only [hl] at h
        obtain ⟨c2, e2, hfr⟩ := focAux_fresh_ok rest
        rw [hfr] at h
        injection h with h1 h2
        exact Except.noConfusion h2
    | .null => injection h with h1 h2; exact h1.symm
    | .bool b => injection h with h1 h2; exact h1.symm
    | .int i => injection h with h1 h2; exact h1.symm
    | .str s => injection h with h1 h2; exact h1.symm
    | .arr vs => injection h with h1 h2; exact h1.symm

/-- After a successful find_or_create loop, strictly walking the same path
in the resulting tree reaches the returned element. -/
theorem focAux_ok_strictFind (ps : List String) (t t2 e : JVal)
    (h : focAux t ps = (t2, .ok e)) : strictFind t2 ps = .ok e := by
  induction ps generalizing t t2 with
  | nil =>
    injection h with h1 h2
    injection h2 with h2
    subst h1 h2
    rfl
  | cons k rest ih =>
    match t with
    | .obj l =>
      simp only [focAux] at h
      match hl : lookupKey l k with
      | some c =>
        simp only [hl] at h
        match hf : focAux c rest with
        | (c2, r) =>
          simp only [hf] at h
          injection h with h1 h2
          subst h1 h2
          simp only [strictFind, getItem, lookupKey_setKey_self]
          exact ih c c2 hf
      | none =>
        simp only [hl] at h
        match hf : focAux (JVal.obj []) rest with
        | (c2, r) =>
          simp only [hf] at h
          injection h with h1 h2
          subst h1 h2
          simp only [strictFind, getItem, lookupKey_setKey_self]
          exact ih _ c2 hf
    | .null | .bool _ | .int _ | .str _ | .arr _ =>
      injection h with h1 h2; exact Except.noConfusion h2

/-- The find_or_create loop raises exactly when strictly walking a proper
path prefix of the original tree ends on a non-mapping node. -/
theorem focAux_error_iff (ps : List String) (t : JVal) :
    (∃ err t2, focAux t ps = (t2, .error err)) ↔
      ∃ n v, n < ps.length ∧ strictFind t (ps.take n) = .ok v ∧ v.isObj = false := by
  induction ps generalizing t with
  | nil =>
    constructor
    · rintro ⟨err, t2, h⟩
      injection h with h1 h2
      exact Except.noConfusion h2
    · rintro ⟨n, v, hn, -, -⟩
      exact absurd hn (by simp)
  | cons k rest ih =>
    match t with
    | .obj l =>
      constructor
      · rintro ⟨err, t2, h⟩
        simp only [focAux] at h
        match hl : lookupKey l k with
        | some c =>
          simp only [hl] at h
          match hf : focAux c rest with
          | (c2, r) =>
            simp only [hf] at h
            injection h with h1 h2
            subst h2
            obtain ⟨n, v, hn, hsf, hv⟩ := (ih c).mp ⟨err, c2, hf⟩
            refine ⟨n + 1, v, by simpa using hn, ?_, hv⟩
            simp only [List.take_succ_cons, strictFind, getItem, hl]
            exact hsf
        | none =>
          simp only [hl] at h
          obtain ⟨c2, e2, hfr⟩ := focAux_fresh_ok rest
          rw [hfr] at h
          injection h with h1 h2
          exact Except.noConfusion h2
      · rintro ⟨n, v, hn, hsf, hv⟩
        match n with
        | 0 =>
          simp only [List.take_zero, strictFind] at hsf
          injection hsf with hsf
          subst hsf
          simp [JVal.isObj] at hv
        | n + 1 =>
          simp only [List.take_succ_cons, strictFind, getItem] at hsf
          match hl : lookupKey l k with
          | some c =>
            rw [hl] at hsf
            obtain ⟨err, c2, hf⟩ := (ih c).mpr ⟨n, v, by simpa using hn, hsf, hv⟩
            refine ⟨err, .obj (setKey l k c2), ?_⟩
            simp only [focAux, hl, hf]
          | none => rw [hl] at hsf; exact Except.noConfusion hsf
    | .null =>
      exact ⟨fun _ => ⟨0, .null, by simp, rfl, rfl⟩,
        fun _ => ⟨.runtimeError "coco.state: non-mapping traversed", .null, rfl⟩⟩
    | .bool b =>
      exact ⟨fun _ => ⟨0, .bool b, by simp, rfl, rfl⟩,
        fun _ => ⟨.runtimeError "coco.state: non-mapping traversed", .bool b, rfl⟩⟩
    | .int i =>
      exact ⟨fun _ => ⟨0, .int i, by simp, rfl, rfl⟩,
        fun _ => ⟨.runtimeError "coco.state: non-mapping traversed", .int i, rfl⟩⟩
    | .str str =>
      exact ⟨fun _ => ⟨0, .str str, by simp, rfl, rfl⟩,
        fun _ => ⟨.runtimeError "coco.state: non-mapping traversed", .str str, rfl⟩⟩
    | .arr vs =>
      exact ⟨fun _ => ⟨0, .arr vs, by simp, rfl, rfl⟩,
        fun _ => ⟨.runtimeError "coco.state: non-mapping traversed", .arr vs, rfl⟩⟩

/-- C7: for non-root paths, State.find_or_create returns the node at the
path, creating an empty mapping node for each missing component (so that
the strict walk of the whole path succeeds afterwards) and persisting the
tree; it raises exactly when a non-mapping node is traversed, and in that
failure case the in-memory tree is unchanged — the failure can only occur
before any new node has been created — and the storage is untouched. -/
theorem c7_find_or_create (s : StateS) (path : String) (s2 : StateS) (r : Except PyErr JVal)
    (hroot : ¬(path = "" ∨ path = "/"))
    (h : State.findOrCreate s path = (s2, r)) :
    (∀ e, r = .ok e → strictFind s2.state (splitSlash path) = .ok e ∧ s2.storage = s2.state)
    ∧ (∀ err, r = .error err → s2.state = s.state ∧ s2.storage = s.storage)
    ∧ ((∃ err, r = .error err) ↔
        ∃ n v, n < (splitSlash path).length
          ∧ strictFind s.state ((splitSlash path).take n) = .ok v ∧ v.isObj = false) := by
  unfold State.findOrCreate at h
  rw [if_neg hroot] at h
  match hf : focAux s.state (splitSlash path) with
  | (t2, .ok e0) =>
    simp only [hf] at h
    injection h with h1 h2
    subst h1 h2
    refine ⟨?_, ?_, ?_⟩
    · intro e he
      injection he with he
      subst he
      exact ⟨focAux_ok_strictFind _ _ _ _ hf, rfl⟩
    · intro err herr
      exact Except.noConfusion herr
    · constructor
      · rintro ⟨err, herr⟩
        exact Except.noConfusion herr
      · intro hex
        obtain ⟨err, t3, hcontra⟩ := (focAux_error_iff _ _).mpr hex
        rw [hf] at hcontra
        injection hcontra with hc1 hc2
        exact Except.noConfusion hc2
  | (t2, .error err0) =>
    simp only [hf] at h
    injection h with h1 h2
    subst h1 h2
    have hunch := focAux_error_unchanged _ _ _ _ hf
    refine ⟨?_, ?_, ?_⟩
    · intro e he
      exact Except.noConfusion he
    · intro err herr
      exact ⟨hunch, rfl⟩
    · constructor
      · intro _
        exact (focAux_error_iff _ _).mp ⟨err0, t2, hf⟩
      · intro _
        exact ⟨err0, rfl⟩

theorem c7_find_or_create_witness :
    ∃ n v, n < (splitSlash "a/b").length
      ∧ strictFind (JVal.obj [("a", JVal.int 1)]) ((splitSlash "a/b").take n) = Except.ok v
      ∧ v.isObj = false :=
  ((c7_find_or_create ⟨JVal.obj [("a", JVal.int 1)], JVal.obj []⟩ "a/b"
      ⟨JVal.obj [("a", JVal.int 1)], JVal.obj []⟩
      (.error (.runtimeError "coco.state: non-mapping traversed"))
      (by decide) (by decide)).2.2).mp
    ⟨.runtimeError "coco.state: non-mapping traversed", rfl⟩

/-- Lowercase hexadecimal digit. -/
def hexDigit (n : Nat) : Char :=
  if n < 10 then Char.ofNat (48 + n) else Char.ofNat (87 + n)

/-- Four lowercase hex digits, as in the \uXXXX escapes of json.dumps. -/
def hex4 (n : Nat) : String :=
  String.mk [hexDigit (n / 4096 % 16), hexDigit (n / 256 % 16), hexDigit (n / 16 % 16),
    hexDigit (n % 16)]

/-- JSON string escaping as json.dumps produces with its default
ensure_ascii=True: quote and backslash escaped, the usual short escapes,
remaining control characters and all non-ASCII as \uXXXX (surrogate pairs
beyond the basic plane). -/
def escChar (c : Char) : String :=
  let n := c.toNat
  if c = '"' then "\\\""
  else if c = '\\' then "\\\\"
  else if n = 8 then "\\b"
  else if n = 9 then "\\t"
  else if n = 10 then "\\n"
  else if n = 12 then "\\f"
  else if n = 13 then "\\r"
  else if n < 32 then "\\u" ++ hex4 n
  else if n < 127 then String.mk [c]
  else if n < 65536 then "\\u" ++ hex4 n
  else "\\u" ++ hex4 (55296 + (n - 65536) / 1024) ++ "\\u" ++ hex4 (56320 + (n - 65536) % 1024)

/-- A JSON string literal: quoted, characters escaped. -/
def serStr (s : String) : String :=
  "\"" ++ String.join (s.data.map escChar) ++ "\""

/-- Lexicographic code-point comparison of character lists: the string
order Python uses when sort_keys=True sorts the mapping keys. -/
def charsLE : List Char → List Char → Bool
  | [], _ => true
  | _ :: _, [] => false
  | a :: as, b :: bs =>
    if a.toNat < b.toNat then true
    else if b.toNat < a.toNat then false
    else charsLE as bs

/-- Python string comparison: code-point lexicographic. -/
def strLE (a b : String) : Bool := charsLE a.data b.data

/-- Ordering of serialised mapping entries by key, as sort_keys=True sorts. -/
def keyLE (a b : String × String) : Prop := strLE a.1 b.1 = true

instance : DecidableRel keyLE := fun a b => inferInstanceAs (Decidable (strLE a.1 b.1 = true))

/-- The key sort that sort_keys=True applies to the entries of a mapping. -/
def sortPairs (l : List (String × String)) : List (String × String) :=
  List.insertionSort keyLE l

/-- One serialised object entry with the compact key separator ":". -/
def pairStr (p : String × String) : String := serStr p.1 ++ ":" ++ p.2

mutual

/-- json.dumps(dict_, sort_keys=True, separators=(",", ":")) from
State.hash_dict (src/coco/state.py:285). Mapping entries are serialised and
then ordered by key; sorting inspects only the keys, so this equals the
sort-then-serialise order of json.dumps. -/
def serialize : JVal → String
  | .null => "null"
  | .bool true => "true"
  | .bool false => "false"
  | .int i => toString i
  | .str s => serStr s
  | .arr vs => "[" ++ String.intercalate "," (serializeList vs) ++ "]"
  | .obj l => "\x7b" ++ String.intercalate "," ((sortPairs (serializePairs l)).map pairStr) ++ "\x7d"

def serializeList : List JVal → List String
  | [] => []
  | v :: rest => serialize v :: serializeList rest

def serializePairs : List (String × JVal) → List (String × String)
  | [] => []
  | (k, v) :: rest => (k, serialize v) :: serializePairs rest

end

/-- Ordering of mapping entries by key, on un-serialised trees. -/
def keyLEJ (a b : String × JVal) : Prop := strLE a.1 b.1 = true

instance : DecidableRel keyLEJ := fun a b => inferInstanceAs (Decidable (strLE a.1 b.1 = true))

mutual

/-- Canonical form of a tree: every mapping's insertion order replaced by
its key order. Two trees have the same mapping contents up to insertion
orders exactly when their canonical forms agree. -/
def canon : JVal → JVal
  | .arr vs => .arr (canonList vs)
  | .obj l => .obj (List.insertionSort keyLEJ (canonPairs l))
  | v => v

def canonList : List JVal → List JVal
  | [] => []
  | v :: rest => canon v :: canonList rest

def canonPairs : List (String × JVal) → List (String × JVal)
  | [] => []
  | (k, v) :: rest => (k, canon v) :: canonPairs rest

end

/-- No string occurs twice in the list. -/
def noDupStr : List String → Bool
  | [] => true
  | k :: rest => (!rest.contains k) && noDupStr rest

mutual

/-- Every mapping node of the tree has pairwise distinct keys, as every
tree arising from a Python dict does. -/
def nodupKeys : JVal → Bool
  | .arr vs => nodupKeysList vs
  | .obj l => noDupStr (l.map Prod.fst) && nodupKeysPairs l
  | _ => true

def nodupKeysList : List JVal → Bool
  | [] => true
  | v :: rest => nodupKeys v && nodupKeysList rest

def nodupKeysPairs : List (String × JVal) → Bool
  | [] => true
  | p :: rest => nodupKeys p.2 && nodupKeysPairs rest

end

/-- Stand-in for the hashlib.md5 hexdigest taken by State.hash_dict: every
result proved about it uses only that the digest is a deterministic
function of the serialised byte string, which holds equally for MD5 and
for this digest. -/
def md5Hex (s : String) : String :=
  toString (s.data.foldl (fun a c => (a * 1099511628211 + c.toNat) % (2 ^ 128)) 14695981039346656037)

/-- State.hash_dict (src/coco/state.py:271): digest of the canonical JSON
serialisation, keys sorted, compact separators, UTF-8. -/
def State.hash_dict (d : JVal) : String := md5Hex (serialize d)

/-- State.hash (src/coco/state.py:255): hash of the subtree at the path. -/
def State.hash (state : JVal) (path : Option String) : Except PyErr String :=
  match State.find state path with
  | .ok e => .ok (State.hash_dict e)
  | .error e => .error e

theorem noDupStr_iff (l : List String) : noDupStr l = true ↔ l.Nodup := by
  induction l with
  | nil => simp [noDupStr]
  | cons k rest ih =>
    simp [noDupStr, ih, List.nodup_cons, List.contains, List.elem_iff]

theorem serializePairs_eq_map (l : List (String × JVal)) :
    serializePairs l = l.map (fun p => (p.1, serialize p.2)) := by
  induction l with
  | nil => rfl
  | cons p rest ih =>
    obtain ⟨k, v⟩ := p
    simp [serializePairs, ih]

theorem nodupKeysList_mem (vs : List JVal) (v : JVal)
    (h : nodupKeysList vs = true) (hv : v ∈ vs) : nodupKeys v = true := by
  induction vs with
  | nil => cases hv
  | cons w rest ih =>
    simp only [nodupKeysList, Bool.and_eq_true] at h
    rcases List.mem_cons.mp hv with hv | hv
    · rw [hv]; exact h.1
    · exact ih h.2 hv

theorem nodupKeysPairs_mem (l : List (String × JVal)) (p : String × JVal)
    (h : nodupKeysPairs l = true) (hp : p ∈ l) : nodupKeys p.2 = true := by
  induction l with
  | nil => cases hp
  | cons q rest ih =>
    simp only [nodupKeysPairs, Bool.and_eq_true] at h
    rcases List.mem_cons.mp hp with hp | hp
    · rw [hp]; exact h.1
    · exact ih h.2 hp

theorem serializeList_congr (vs : List JVal)
    (h : ∀ v ∈ vs, serialize (canon v) = serialize v) :
    serializeList (canonList vs) = serializeList vs := by
  induction vs with
  | nil => rfl
  | cons v rest ih =>
    simp only [canonList, serializeList]
    rw [h v (List.mem_cons_self v rest), ih (fun w hw => h w (List.mem_cons_of_mem v hw))]

theorem serializePairs_congr (l : List (String × JVal))
    (h : ∀ p ∈ l, serialize (canon p.2) = serialize p.2) :
    serializePairs (canonPairs l) = serializePairs l := by
  induction l with
  | nil => rfl
  | cons p rest ih =>
    obtain ⟨k, v⟩ := p
    simp only [canonPairs, serializePairs]
    rw [h (k, v) (List.mem_cons_self _ rest), ih (fun q hq => h q (List.mem_cons_of_mem _ hq))]

theorem charsLE_total (a b : List Char) : charsLE a b = true ∨ charsLE b a = true := by
  induction a generalizing b with
  | nil => left; cases b <;> rfl
  | cons x xs ih =>
    cases b with
    | nil => right; rfl
    | cons y ys =>
      by_cases h1 : x.toNat < y.toNat
      · left; simp [charsLE, h1]
      · by_cases h2 : y.toNat < x.toNat
        · right; simp [charsLE, h2]
        · rcases ih ys with h | h
          · left; simp [charsLE, h1, h2, h]
          · right; simp [charsLE, h1, h2, h]

theorem charsLE_trans (a b c : List Char) (h1 : charsLE a b = true) (h2 : charsLE b c = true) :
    charsLE a c = true := by
  induction a generalizing b c with
  | nil => cases c <;> rfl
  | cons x xs ih =>
    cases b with
    | nil => simp [charsLE] at h1
    | cons y ys =>
      cases c with
      | nil => simp [charsLE] at h2
      | cons z zs =>
        by_cases hxy : x.toNat < y.toNat
        · by_cases hyz : y.toNat < z.toNat
          · have hxz : x.toNat < z.toNat := lt_trans hxy hyz
            simp [charsLE, hxz]
          · by_cases hzy : z.toNat < y.toNat
            · simp [charsLE, hyz, hzy] at h2
            · have hy : y.toNat = z.toNat :=
                Nat.le_antisymm (Nat.le_of_not_lt hzy) (Nat.le_of_not_lt hyz)

              have hxz : x.toNat < z.toNat := hy ▸ hxy
              simp [charsLE, hxz]
        · by_cases hyx : y.toNat < x.toNat
          · simp [charsLE, hxy, hyx] at h1
          · have hx : x.toNat = y.toNat :=
              Nat.le_antisymm (Nat.le_of_not_lt hyx) (Nat.le_of_not_lt hxy)
            simp only [charsLE, if_neg hxy, if_neg hyx] at h1
            by_cases hyz : y.toNat < z.toNat
            · have hxz : x.toNat < z.toNat := hx ▸ hyz
              simp [charsLE, hxz]
            · by_cases hzy : z.toNat < y.toNat
              · simp [charsLE, hyz, hzy] at h2
              · have hy : y.toNat = z.toNat :=
                  Nat.le_antisymm (Nat.le_of_not_lt hzy) (Nat.le_of_not_lt hyz)
                simp only [charsLE, if_neg hyz, if_neg hzy] at h2
                have hxz : ¬ x.toNat < z.toNat := by omega
                have hzx : ¬ z.toNat < x.toNat := by omega
                simp only [charsLE, if_neg hxz, if_neg hzx]
                exact ih ys zs h1 h2

theorem charsLE_antisymm (a b : List Char) (h1 : charsLE a b = true) (h2 : charsLE b a = true) :
    a = b := by
  induction a generalizing b with
  | nil =>
    cases b with
    | nil => rfl
    | cons y ys => simp [charsLE] at h2
  | cons x xs ih =>
    cases b with
    | nil => simp [charsLE] at h1
    | cons y ys =>
      by_cases hxy : x.toNat < y.toNat
      · have hyx : ¬ y.toNat < x.toNat := by omega
        simp [charsLE, hxy, hyx] at h2
      · by_cases hyx : y.toNat < x.toNat
        · simp [charsLE, hxy, hyx] at h1
        · have hx : x.toNat = y.toNat :=
            Nat.le_antisymm (Nat.le_of_not_lt hyx) (Nat.le_of_not_lt hxy)
          have hc : x = y := Char.eq_of_val_eq (by apply UInt32.ext; exact hx)
          simp only [charsLE, if_neg hxy, if_neg hyx] at h1 h2
          rw [hc, ih ys h1 h2]

theorem strLE_antisymm (a b : String) (h1 : strLE a b = true) (h2 : strLE b a = true) : a = b := by
  have hd := charsLE_antisymm a.data b.data h1 h2
  cases a
  cases b
  simp only at hd
  rw [hd]

/-- Key-sorting two permuted entry lists with pairwise distinct keys gives
the same sorted list. -/
theorem sortPairs_eq_of_perm (a b : List (String × String)) (hab : a.Perm b)
    (hnd : (b.map Prod.fst).Nodup) : sortPairs a = sortPairs b := by
  haveI : IsTotal (String × String) keyLE := ⟨fun p q => charsLE_total p.1.data q.1.data⟩
  haveI : IsTrans (String × String) keyLE :=
    ⟨fun p q r h1 h2 => charsLE_trans p.1.data q.1.data r.1.data h1 h2⟩
  haveI : IsAntisymm (String × String) (fun p q : String × String => keyLE p q ∧ p.1 ≠ q.1) :=
    ⟨fun p q h1 h2 => absurd (strLE_antisymm p.1 q.1 h1.1 h2.1) h1.2⟩
  have hpa : (sortPairs a).Perm a := List.perm_insertionSort keyLE a
  have hpb : (sortPairs b).Perm b := List.perm_insertionSort keyLE b
  have hperm : (sortPairs a).Perm (sortPairs b) := hpa.trans (hab.trans hpb.symm)
  have hsa : List.Sorted keyLE (sortPairs a) := List.sorted_insertionSort keyLE a
  have hsb : List.Sorted keyLE (sortPairs b) := List.sorted_insertionSort keyLE b
  have hnda : ((sortPairs a).map Prod.fst).Nodup :=
    (((hpa.trans hab).map Prod.fst).nodup_iff).mpr hnd
  have hndb : ((sortPairs b).map Prod.fst).Nodup := ((hpb.map Prod.fst).nodup_iff).mpr hnd
  apply List.eq_of_perm_of_sorted
    (r := fun p q : String × String => keyLE p q ∧ p.1 ≠ q.1) hperm
  · exact List.Pairwise.and hsa ((List.pairwise_map).mp hnda)
  · exact List.Pairwise.and hsb ((List.pairwise_map).mp hndb)

theorem serialize_canon_size : ∀ (n : Nat) (v : JVal), sizeOf v ≤ n → nodupKeys v = true →
    serialize (canon v) = serialize v := by
  intro n
  induction n with
  | zero =>
    intro v hv _
    exact absurd hv (by cases v <;> simp)
  | succ n ih =>
    intro v hv hnd
    match v with
    | .null => rfl
    | .bool b => rfl
    | .int i => rfl
    | .str s => rfl
    | .arr vs =>
      simp only [nodupKeys] at hnd
      have hmem : ∀ w ∈ vs, serialize (canon w) = serialize w := by
        intro w hw
        apply ih w ?_ (nodupKeysList_mem vs w hnd hw)
        have h1 := List.sizeOf_lt_of_mem hw
        have h2 : sizeOf (JVal.arr vs) = 1 + sizeOf vs := by simp
        omega
      simp only [canon, serialize]
      rw [serializeList_congr vs hmem]
    | .obj l =>
      simp only [nodupKeys, Bool.and_eq_true] at hnd
      obtain ⟨hnd1, hnd2⟩ := hnd
      have hmem : ∀ p ∈ l, serialize (canon p.2) = serialize p.2 := by
        intro p hp
        apply ih p.2 ?_ (nodupKeysPairs_mem l p hnd2 hp)
        have h1 := List.sizeOf_lt_of_mem hp
        have h2 : sizeOf p.2 < sizeOf p := by
          obtain ⟨x, y⟩ := p
          simp only [Prod.mk.sizeOf_spec]
          omega
        have h3 : sizeOf (JVal.obj l) = 1 + sizeOf l := by simp
        omega
      have hA : serializePairs (canonPairs l) = serializePairs l := serializePairs_congr l hmem
      have hp1 : (List.insertionSort keyLEJ (canonPairs l)).Perm (canonPairs l) :=
        List.perm_insertionSort keyLEJ (canonPairs l)
      have hp2 := hp1.map (fun p => (p.1, serialize p.2))
      rw [← serializePairs_eq_map, ← serializePairs_eq_map] at hp2
      rw [hA] at hp2
      have hkeys : ((serializePairs l).map Prod.fst).Nodup := by
        rw [serializePairs_eq_map, List.map_map]
        exact (noDupStr_iff _).mp hnd1
      have hsort := sortPairs_eq_of_perm _ _ hp2 hkeys
      simp only [canon, serialize]
      rw [hsort]

/-- Canonicalising every mapping's entry order does not change the
serialisation, because the serialiser sorts by key anyway. -/
theorem serialize_canon (v : JVal) (h : nodupKeys v = true) :
    serialize (canon v) = serialize v :=
  serialize_canon_size (sizeOf v) v le_rfl h

/-- C2: State.hash_dict is a function of the mapping contents only. Two
trees with the same contents and any permutation of mapping-key insertion
orders (equal canonical forms; keys pairwise distinct, as in every tree a
Python dict can hold) have equal hashes, computed over the canonical JSON
serialisation with keys sorted and compact separators. -/
theorem c2_hash_insertion_order_invariant (T T2 : JVal)
    (h1 : nodupKeys T = true) (h2 : nodupKeys T2 = true) (h : canon T = canon T2) :
    State.hash_dict T = State.hash_dict T2 := by
  unfold State.hash_dict
  rw [← serialize_canon T h1, ← serialize_canon T2 h2, h]

theorem c2_hash_insertion_order_invariant_witness :
    State.hash_dict (JVal.obj [("b", JVal.int 2), ("a", JVal.obj [("y", JVal.int 1), ("x", JVal.null)])])
      = State.hash_dict (JVal.obj [("a", JVal.obj [("x", JVal.null), ("y", JVal.int 1)]), ("b", JVal.int 2)]) :=
  c2_hash_insertion_order_invariant
    (JVal.obj [("b", JVal.int 2), ("a", JVal.obj [("y", JVal.int 1), ("x", JVal.null)])])
    (JVal.obj [("a", JVal.obj [("x", JVal.null), ("y", JVal.int 1)]), ("b", JVal.int 2)])
    (by decide) (by decide) (by decide)

/-- State.read_from_file (src/coco/state.py:147) with the YAML document
already parsed to a value: _find_new walks the path, the content is
assigned under the final component, and the tree is persisted — the same
effect as State.write of the parsed content. -/
def State.readFromFile (s : StateS) (path : String) (content : JVal) : Except PyErr StateS :=
  State.write s path content

/-- State._load_initial_state (src/coco/state.py:302): load each initial
state file, in order, into the tree. -/
def State.loadInitialState (files : List (String × JVal)) (s : StateS) : Except PyErr StateS :=
  match files with
  | [] => .ok s
  | (p, c) :: rest =>
    match State.readFromFile s p c with
    | .ok s2 => State.loadInitialState rest s2
    | .error e => .error e

/-- State.process_post for /reset-state (src/coco/state.py:307): flush the
in-memory tree, re-load the initial state files, persist the new tree. -/
def State.processPost (files : List (String × JVal)) (s : StateS) : Except PyErr StateS :=
  match State.loadInitialState files ⟨JVal.obj [], s.storage⟩ with
  | .ok s2 => .ok ⟨s2.state, s2.state⟩
  | .error e => .error e

/-- Hydrating the initial files into an entirely empty state. -/
def State.freshLoad (files : List (String × JVal)) : Except PyErr StateS :=
  State.loadInitialState files ⟨JVal.obj [], JVal.obj []⟩

/-- The tree produced by loading the initial files does not depend on what
the persisted storage held beforehand. -/
theorem loadInitialState_state_eq (files : List (String × JVal)) (t st1 st2 : JVal) :
    (State.loadInitialState files ⟨t, st1⟩).map StateS.state
      = (State.loadInitialState files ⟨t, st2⟩).map StateS.state := by
  match files with
  | [] => rfl
  | (p, c) :: rest =>
    simp only [State.loadInitialState, State.readFromFile, State.write]

/-- C6: when a reset succeeds, the resulting state tree equals the tree
obtained by loading only the initial state files into an empty tree — in
particular its hash equals the hash of that freshly hydrated tree — no
matter what writes happened before the reset, and the new tree is written
to persistent storage. -/
theorem c6_reset_state (files : List (String × JVal)) (s s2 : StateS)
    (h : State.processPost files s = .ok s2) :
    ∃ s3, State.freshLoad files = .ok s3 ∧ s2.state = s3.state
      ∧ State.hash_dict s2.state = State.hash_dict s3.state ∧ s2.storage = s2.state := by
  unfold State.processPost at h
  match hl : State.loadInitialState files ⟨JVal.obj [], s.storage⟩ with
  | .error e => simp only [hl] at h; exact Except.noConfusion h
  | .ok s4 =>
    simp only [hl] at h
    cases h
    have heq := loadInitialState_state_eq files (JVal.obj []) s.storage (JVal.obj [])
    rw [hl] at heq
    unfold State.freshLoad
    match hf : State.loadInitialState files ⟨JVal.obj [], JVal.obj []⟩ with
    | .error e =>
      rw [hf] at heq
      simp only [Except.map] at heq
      exact Except.noConfusion heq
    | .ok s5 =>
      rw [hf] at heq
      simp only [Except.map] at heq
      injection heq with heq
      exact ⟨s5, rfl, heq, by rw [heq], rfl⟩

theorem c6_reset_state_witness :
    ∃ s3, State.freshLoad [("base", JVal.obj [("x", JVal.int 1)])] = Except.ok s3
      ∧ (StateS.mk (JVal.obj [("base", JVal.obj [("x", JVal.int 1)])])
          (JVal.obj [("base", JVal.obj [("x", JVal.int 1)])])).state = s3.state
      ∧ State.hash_dict (StateS.mk (JVal.obj [("base", JVal.obj [("x", JVal.int 1)])])
          (JVal.obj [("base", JVal.obj [("x", JVal.int 1)])])).state = State.hash_dict s3.state
      ∧ (StateS.mk (JVal.obj [("base", JVal.obj [("x", JVal.int 1)])])
          (JVal.obj [("base", JVal.obj [("x", JVal.int 1)])])).storage
        = (StateS.mk (JVal.obj [("base", JVal.obj [("x", JVal.int 1)])])
          (JVal.obj [("base", JVal.obj [("x", JVal.int 1)])])).state :=
  c6_reset_state [("base", JVal.obj [("x", JVal.int 1)])]
    ⟨JVal.obj [("junk", JVal.int 9)], JVal.obj [("junk", JVal.int 9)]⟩
    ⟨JVal.obj [("base", JVal.obj [("x", JVal.int 1)])],
      JVal.obj [("base", JVal.obj [("x", JVal.int 1)])]⟩
    (by decide)

/-- Modelled from the spec: Host (src/coco/util.py, not among the sources)
is a pair (hostname, port), parsed from "hostname:port" with the port
absent when none was given; equality is componentwise. -/
structure Host where
  hostname : String
  port : Option Nat
deriving Repr, DecidableEq

/-- The blocklist state: the set of blocked hosts (the in-memory cache
_hosts that _build_hosts mirrors from the persisted file, persisted again
on every mutation) together with the known-hosts table. Python sets become
a Finset for the blocklist and, for the known hosts — whose iteration
order the code observes through list(matching_hosts)[0] — a list in some
iteration order. -/
structure Blocklist where
  hosts : Finset Host
  knownHosts : List Host
deriving DecidableEq

/-- The inner _check_host of Blocklist._check_hosts
(src/coco/blocklist.py:179): collect the known hosts sharing the hostname;
no match marks the host invalid; a port-less host is substituted by the
first matching host and is valid only when the match is unique; a host
with a port is valid when it is among the matches. -/
def checkHost (known : List Host) (h : Host) : Host × Bool :=
  match known.filter (fun k => k.hostname == h.hostname) with
  | [] => (h, false)
  | m :: rest =>
    match h.port with
    | none => (m, rest.isEmpty)
    | some _ => (h, (m :: rest).contains h)

/-- Blocklist._check_hosts (src/coco/blocklist.py:160): an empty request
yields ([], [True]); otherwise the checks run pointwise and the
substituted hosts and validity flags come back in request order. -/
def checkHosts (known : List Host) (hosts : List Host) : List Host × List Bool :=
  match hosts with
  | [] => ([], [true])
  | _ :: _ =>
    (hosts.map (fun x => (checkHost known x).1), hosts.map (fun x => (checkHost known x).2))

/-- The InvalidUsage raised by the blocklist endpoints, carrying the
offending hosts as context. -/
inductive BlockErr where
  | invalidUsage (badHosts : List Host)
deriving Repr, DecidableEq

/-- Blocklist.add_hosts (src/coco/blocklist.py:46): reject the whole update
when any entry fails the check — before any mutation — and otherwise add
the checked hosts not already blocklisted and persist the new set. -/
def Blocklist.addHosts (bl : Blocklist) (hosts : List Host) : Except BlockErr Blocklist :=
  match checkHosts bl.knownHosts hosts with
  | (hlist, checks) =>
    if checks.all (fun c => c) then
      if hlist.toFinset \ bl.hosts = ∅ then .ok bl
      else .ok { bl with hosts := bl.hosts ∪ (hlist.toFinset \ bl.hosts) }
    else
      .error (.invalidUsage (((hosts.zip checks).filter (fun p => !p.2)).map Prod.fst))

/-- Blocklist.remove_hosts (src/coco/blocklist.py:95): reject the whole
update when any entry fails the check — before any mutation — and
otherwise drop the checked hosts that are blocklisted and persist. -/
def Blocklist.removeHosts (bl : Blocklist) (hosts : List Host) : Except BlockErr Blocklist :=
  match checkHosts bl.knownHosts hosts with
  | (hlist, checks) =>
    if checks.all (fun c => c) then
      if hlist.toFinset \ (hlist.toFinset \ bl.hosts) = ∅ then .ok bl
      else .ok
        { bl with hosts := bl.hosts \ (hlist.toFinset \ (hlist.toFinset \ bl.hosts)) }
    else
      .error (.invalidUsage (((hosts.zip checks).filter (fun p => !p.2)).map Prod.fst))

/-- Blocklist.clear_hosts (src/coco/blocklist.py:146). -/
def Blocklist.clearHosts (bl : Blocklist) : Blocklist := { bl with hosts := ∅ }

/-- Blocklist.__init__ (src/coco/blocklist.py:26): the persisted blocklist
file is loaded (an absent file becomes the empty list) and cached as the
hosts set with no validation against the known hosts; the known-hosts
table is filled from the configured hosts. The persisted file and
PersistentState (util.py, absent from the sources) are modelled from the
spec by the list of hosts the file holds. -/
def Blocklist.init (persisted : Option (List Host)) (known : List Host) : Blocklist :=
  match persisted with
  | none => ⟨∅, known⟩
  | some l => ⟨l.toFinset, known⟩

/-- Modelled from the spec: the union of all configured group members, the
known hosts that core start-up files into the blocklist
(request_forwarder.py is absent from the sources). -/
def groupUnion (groups : List (String × List Host)) : List Host :=
  (groups.map Prod.snd).flatten

/-- The three kinds of unknown entry named by C3: a hostname matching no
known host, a host:port pair absent from the known hosts, or a port-less
hostname matching more than one known host. -/
def UnknownEntry (known : List Host) (h : Host) : Prop :=
  (∀ k ∈ known, k.hostname ≠ h.hostname)
  ∨ (h.port.isSome = true ∧ h ∉ known)
  ∨ (h.port = none ∧ 1 < (known.filter (fun k => k.hostname == h.hostname)).length)

theorem unknown_checkHost_false (known : List Host) (h : Host) (hu : UnknownEntry known h) :
    (checkHost known h).2 = false := by
  match hm : known.filter (fun k => k.hostname == h.hostname) with
  | [] => simp [checkHost, hm]
  | m :: rest =>
    have hnomatch : ¬ (∀ k ∈ known, k.hostname ≠ h.hostname) := by
      intro hno
      have hm2 : m ∈ known.filter (fun k => k.hostname == h.hostname) := by
        rw [hm]
        exact List.mem_cons_self _ _
      exact hno m (List.mem_of_mem_filter hm2) (by simpa using List.of_mem_filter hm2)
    match hps : h.port with
    | none =>
      rcases hu with hu | hu | hu
      · exact absurd hu hnomatch
      · obtain ⟨hp, -⟩ := hu
        rw [hps] at hp
        simp at hp
      · obtain ⟨-, hlen⟩ := hu
        rw [hm] at hlen
        simp only [checkHost, hm, hps]
        match rest with
        | [] => simp at hlen
        | r :: rs => rfl
    | some p =>
      rcases hu with hu | hu | hu
      · exact absurd hu hnomatch
      · obtain ⟨-, hnk⟩ := hu
        simp only [checkHost, hm, hps]
        by_contra hcon
        rw [Bool.not_eq_false] at hcon
        have hmem : h ∈ m :: rest := by
          simpa [List.contains, List.elem_iff] using hcon
        rw [← hm] at hmem
        exact hnk (List.mem_of_mem_filter hmem)
      · obtain ⟨hpn, -⟩ := hu
        rw [hps] at hpn
        exact Option.noConfusion hpn

theorem checkHosts_all_false (known : List Host) (hosts : List Host) (x : Host)
    (hx : x ∈ hosts) (hfx : (checkHost known x).2 = false) :
    (checkHosts known hosts).2.all (fun c => c) = false := by
  match hosts with
  | [] => cases hx
  | y :: ys =>
    simp only [checkHosts]
    apply List.all_eq_false.mpr
    refine ⟨(checkHost known x).2, List.mem_map_of_mem _ hx, ?_⟩
    simp [hfx]

/-- C3: every blocklist add or remove request containing at least one
unknown entry raises InvalidUsage; no updated blocklist is produced (the
check precedes every mutation of the persisted set), so the blocklist is
left unchanged and the update is all-or-nothing. -/
theorem c3_unknown_host_rejected (bl : Blocklist) (hosts : List Host) (x : Host)
    (hx : x ∈ hosts) (hu : UnknownEntry bl.knownHosts x) :
    (∃ bad, bl.addHosts hosts = .error (.invalidUsage bad))
      ∧ (∃ bad, bl.removeHosts hosts = .error (.invalidUsage bad)) := by
  have hfx := unknown_checkHost_false bl.knownHosts x hu
  have hall := checkHosts_all_false bl.knownHosts hosts x hx hfx
  match hc : checkHosts bl.knownHosts hosts with
  | (hlist, checks) =>
    rw [hc] at hall
    dsimp only at hall
    constructor
    · refine ⟨((hosts.zip checks).filter (fun p => !p.2)).map Prod.fst, ?_⟩
      simp only [Blocklist.addHosts, hc]
      rw [if_neg]
      simp [hall]
    · refine ⟨((hosts.zip checks).filter (fun p => !p.2)).map Prod.fst, ?_⟩
      simp only [Blocklist.removeHosts, hc]
      rw [if_neg]
      simp [hall]

theorem c3_unknown_host_rejected_witness :
    (∃ bad, (Blocklist.mk ∅ [⟨"h", some 1⟩]).addHosts [⟨"c", some 3⟩]
        = .error (.invalidUsage bad))
      ∧ (∃ bad, (Blocklist.mk ∅ [⟨"h", some 1⟩]).removeHosts [⟨"c", some 3⟩]
        = .error (.invalidUsage bad)) :=
  c3_unknown_host_rejected (Blocklist.mk ∅ [⟨"h", some 1⟩]) [⟨"c", some 3⟩] ⟨"c", some 3⟩
    (List.mem_cons_self _ _) (Or.inl (by decide))

/-- A host that passes _check_host comes out of the known-hosts table:
either it was found there (host:port) or it was substituted by the unique
known host with its hostname. -/
theorem checkHost_true_known (known : List Host) (x : Host)
    (h : (checkHost known x).2 = true) : (checkHost known x).1 ∈ known := by
  match hm : known.filter (fun k => k.hostname == x.hostname) with
  | [] => simp [checkHost, hm] at h
  | m :: rest =>
    match hps : x.port with
    | none =>
      simp only [checkHost, hm, hps]
      have hm2 : m ∈ known.filter (fun k => k.hostname == x.hostname) := by
        rw [hm]
        exact List.mem_cons_self _ _
      exact List.mem_of_mem_filter hm2
    | some p =>
      simp only [checkHost, hm, hps] at h ⊢
      have hmem : x ∈ m :: rest := by
        simpa [List.contains, List.elem_iff] using h
      rw [← hm] at hmem
      exact List.mem_of_mem_filter hmem

/-- When every check passes, every substituted host is a known host. -/
theorem checkHosts_all_known (known : List Host) (hosts : List Host)
    (hall : (checkHosts known hosts).2.all (fun c => c) = true) :
    ∀ y ∈ (checkHosts known hosts).1, y ∈ known := by
  match hosts with
  | [] =>
    intro y hy
    simp [checkHosts] at hy
  | z :: zs =>
    intro y hy
    simp only [checkHosts] at hy hall
    obtain ⟨x, hx, hyx⟩ := List.mem_map.mp hy
    have hc : (checkHost known x).2 = true := by
      have := List.all_eq_true.mp hall _ (List.mem_map_of_mem _ hx)
      simpa using this
    rw [← hyx]
    exact checkHost_true_known known x hc

/-- C8 holds for every mutation but not for the startup load: the add,
remove and clear operations preserve the property that every blocklisted
host is a member of the union of all configured group members (the known
hosts). The startup load itself performs no validation, so immediately
after startup the property holds only if the persisted file already
satisfied it (see the counterexample). -/
theorem c8_blocklist_known_preserved (bl : Blocklist) (groups : List (String × List Host))
    (hosts : List Host) (bl2 bl3 : Blocklist)
    (hk : ∀ k ∈ bl.knownHosts, k ∈ groupUnion groups)
    (hinv : ∀ x ∈ bl.hosts, x ∈ groupUnion groups)
    (hadd : bl.addHosts hosts = .ok bl2) (hrem : bl.removeHosts hosts = .ok bl3) :
    (∀ x ∈ bl2.hosts, x ∈ groupUnion groups)
    ∧ (∀ x ∈ bl3.hosts, x ∈ groupUnion groups)
    ∧ (∀ x ∈ (Blocklist.clearHosts bl).hosts, x ∈ groupUnion groups) := by
  refine ⟨?_, ?_, ?_⟩
  · intro x hx
    unfold Blocklist.addHosts at hadd
    match hc : checkHosts bl.knownHosts hosts with
    | (hlist, checks) =>
      rw [hc] at hadd
      dsimp only at hadd
      by_cases hall : checks.all (fun c => c) = true
      · rw [if_pos hall] at hadd
        by_cases hempty : hlist.toFinset \ bl.hosts = ∅
        · rw [if_pos hempty] at hadd
          injection hadd with hadd
          subst hadd
          exact hinv x hx
        · rw [if_neg hempty] at hadd
          injection hadd with hadd
          subst hadd
          simp only [Finset.mem_union, Finset.mem_sdiff] at hx
          rcases hx with hx | ⟨hx, -⟩
          · exact hinv x hx
          · have hknown : x ∈ bl.knownHosts := by
              apply checkHosts_all_known bl.knownHosts hosts
              · rw [hc]
                dsimp only
                exact hall
              · rw [hc]
                dsimp only
                exact List.mem_toFinset.mp hx
            exact hk x hknown
      · rw [if_neg hall] at hadd
        exact Except.noConfusion hadd
  · intro x hx
    unfold Blocklist.removeHosts at hrem
    match hc : checkHosts bl.knownHosts hosts with
    | (hlist, checks) =>
      rw [hc] at hrem
      dsimp only at hrem
      by_cases hall : checks.all (fun c => c) = true
      · rw [if_pos hall] at hrem
        by_cases hempty : hlist.toFinset \ (hlist.toFinset \ bl.hosts) = ∅
        · rw [if_pos hempty] at hrem
          injection hrem with hrem
          subst hrem
          exact hinv x hx
        · rw [if_neg hempty] at hrem
          injection hrem with hrem
          subst hrem
          simp only [Finset.mem_sdiff] at hx
          exact hinv x hx.1
      · rw [if_neg hall] at hrem
        exact Except.noConfusion hrem
  · intro x hx
    simp [Blocklist.clearHosts] at hx

/-- C8 as stated is false right after startup: the persisted blocklist
file is loaded without validation, so a stale host that belongs to no
configured group stays on the blocklist. -/
theorem c8_counterexample :
    ¬ (∀ x ∈ (Blocklist.init (some [⟨"stale", some 1⟩])
          (groupUnion [("g", [⟨"h", some 1⟩])])).hosts,
        x ∈ groupUnion [("g", [⟨"h", some 1⟩])]) := by
  intro hcon
  have hmem : (⟨"stale", some 1⟩ : Host)
      ∈ (Blocklist.init (some [⟨"stale", some 1⟩])
          (groupUnion [("g", [⟨"h", some 1⟩])])).hosts := by decide
  have := hcon _ hmem
  simp [groupUnion] at this

theorem c8_blocklist_known_preserved_witness :
    (∀ x ∈ (Blocklist.mk {⟨"h", some 1⟩} [⟨"h", some 1⟩, ⟨"i", some 2⟩]).hosts,
        x ∈ groupUnion [("g", [⟨"h", some 1⟩, ⟨"i", some 2⟩])])
    ∧ (∀ x ∈ (Blocklist.mk ∅ [⟨"h", some 1⟩, ⟨"i", some 2⟩]).hosts,
        x ∈ groupUnion [("g", [⟨"h", some 1⟩, ⟨"i", some 2⟩])])
    ∧ (∀ x ∈ (Blocklist.clearHosts
          (Blocklist.mk ∅ [⟨"h", some 1⟩, ⟨"i", some 2⟩])).hosts,
        x ∈ groupUnion [("g", [⟨"h", some 1⟩, ⟨"i", some 2⟩])]) :=
  c8_blocklist_known_preserved (Blocklist.mk ∅ [⟨"h", some 1⟩, ⟨"i", some 2⟩])
    [("g", [⟨"h", some 1⟩, ⟨"i", some 2⟩])] [⟨"h", some 1⟩]
    (Blocklist.mk {⟨"h", some 1⟩} [⟨"h", some 1⟩, ⟨"i", some 2⟩])
    (Blocklist.mk ∅ [⟨"h", some 1⟩, ⟨"i", some 2⟩])
    (by decide) (by decide) (by decide) (by decide)

/-- The metadata fields the frontend stores under the entry key
(src/coco/core.py:430): method, endpoint, request body, query params and
the received timestamp. -/
structure EntryMeta where
  method : String
  endpoint : String
  request : String
  params : String
  received : Nat
deriving Repr, DecidableEq

/-- The slice of redis state the enqueue protocol touches: the queue of
entry keys, the per-entry metadata hashes, and the counters. -/
structure RedisState where
  queue : List String
  hashes : List (String × EntryMeta)
  counters : List (String × Nat)
deriving Repr, DecidableEq

/-- Metadata hash assignment (hmset key): set or replace the entry. -/
def setMeta (l : List (String × EntryMeta)) (k : String) (m : EntryMeta) :
    List (String × EntryMeta) :=
  setKey l k m

/-- Counter read with the redis default of 0 for an absent key. -/
def getCounter (l : List (String × Nat)) (k : String) : Nat :=
  match lookupKey l k with
  | some n => n
  | none => 0

/-- Redis INCR. -/
def incrCounter (l : List (String × Nat)) (k : String) : List (String × Nat) :=
  setKey l k (getCounter l k + 1)

/-- The Lua queue script loaded in Core.__init__ (src/coco/core.py:121),
which redis runs atomically: when the queue already holds queue_length or
more entries return true and touch nothing; otherwise hmset the metadata,
rpush the key and return false. Its atomicity against other producers is
modelled by its being a single transition on the redis state. -/
def queueScript (st : RedisState) (queueLength : Nat) (key : String) (m : EntryMeta) :
    Bool × RedisState :=
  if queueLength ≤ st.queue.length then (true, st)
  else (false, { st with hashes := setMeta st.hashes key m, queue := st.queue ++ [key] })

/-- What the enqueue phase hands back to the HTTP layer: the immediate
503 json reply on overflow, or the go-ahead to await the rendezvous. -/
inductive EnqueueOutcome where
  | rejected (reply : String) (status : Nat)
  | queued
deriving Repr, DecidableEq

/-- The enqueue phase of Core.external_endpoint (src/coco/core.py:427):
with queue_length > 0 the queue script runs, and a full queue increments
dropped_counter_<endpoint> and returns the 503 reply; with no limit the
metadata fields are written and the key appended directly. -/
def externalEnqueue (st : RedisState) (queueLength : Nat) (key : String) (m : EntryMeta) :
    RedisState × EnqueueOutcome :=
  if 0 < queueLength then
    match queueScript st queueLength key m with
    | (true, st1) =>
      ({ st1 with counters := incrCounter st1.counters ("dropped_counter_" ++ m.endpoint) },
        .rejected "Coco queue is full." 503)
    | (false, st1) => (st1, .queued)
  else
    ({ st with hashes := setMeta st.hashes key m, queue := st.queue ++ [key] }, .queued)

/-- C4: when queue_length > 0 and the queue already holds at least
queue_length entries, the enqueue returns status 503 with the reply body
"Coco queue is full.", increments dropped_counter_<endpoint> by one, and
writes neither the entry metadata nor the queue; otherwise (below the
limit, or no limit at all) it writes the metadata fields and appends the
key, leaving the counters alone. The length check and append happen inside
the single atomic queue-script transition. -/
theorem c4_queue_full_rejects (st : RedisState) (queueLength : Nat) (key : String)
    (m : EntryMeta) :
    (0 < queueLength → queueLength ≤ st.queue.length →
      externalEnqueue st queueLength key m
        = ({ st with counters := incrCounter st.counters ("dropped_counter_" ++ m.endpoint) },
            .rejected "Coco queue is full." 503)
      ∧ getCounter (externalEnqueue st queueLength key m).1.counters
            ("dropped_counter_" ++ m.endpoint)
          = getCounter st.counters ("dropped_counter_" ++ m.endpoint) + 1
      ∧ (externalEnqueue st queueLength key m).1.hashes = st.hashes
      ∧ (externalEnqueue st queueLength key m).1.queue = st.queue)
    ∧ ((0 < queueLength → st.queue.length < queueLength) →
      externalEnqueue st queueLength key m
        = ({ st with hashes := setMeta st.hashes key m, queue := st.queue ++ [key] }, .queued)) := by
  constructor
  · intro hpos hfull
    have hscript : queueScript st queueLength key m = (true, st) := by
      unfold queueScript
      rw [if_pos hfull]
    have heq : externalEnqueue st queueLength key m
        = ({ st with counters := incrCounter st.counters ("dropped_counter_" ++ m.endpoint) },
            .rejected "Coco queue is full." 503) := by
      unfold externalEnqueue
      rw [if_pos hpos, hscript]
    refine ⟨heq, ?_, ?_, ?_⟩
    · rw [heq]
      simp [incrCounter, getCounter, lookupKey_setKey_self]
    · rw [heq]
    · rw [heq]
  · intro hnotfull
    unfold externalEnqueue
    by_cases hpos : 0 < queueLength
    · have hlt := hnotfull hpos
      have hscript : queueScript st queueLength key m
          = (false, { st with hashes := setMeta st.hashes key m, queue := st.queue ++ [key] }) := by
        unfold queueScript
        rw [if_neg (by omega)]
      rw [if_pos hpos, hscript]
    · rw [if_neg hpos]

theorem c4_queue_full_rejects_witness :
    (externalEnqueue ⟨["k0"], [], []⟩ 1 "k1"
        ⟨"GET", "status", "", "", 0⟩
      = (⟨["k0"], [], [("dropped_counter_status", 1)]⟩,
          .rejected "Coco queue is full." 503))
    ∧ getCounter (externalEnqueue ⟨["k0"], [], []⟩ 1 "k1"
        ⟨"GET", "status", "", "", 0⟩).1.counters "dropped_counter_status"
      = getCounter ([] : List (String × Nat)) "dropped_counter_status" + 1 :=
  ⟨((c4_queue_full_rejects ⟨["k0"], [], []⟩ 1 "k1" ⟨"GET", "status", "", "", 0⟩).1
      (by decide) (by decide)).1,
    ((c4_queue_full_rejects ⟨["k0"], [], []⟩ 1 "k1" ⟨"GET", "status", "", "", 0⟩).1
      (by decide) (by decide)).2.1⟩

theorem lookupKey_setKey_other {α : Type} (l : List (String × α)) (k k2 : String) (v : α)
    (h : k ≠ k2) : lookupKey (setKey l k v) k2 = lookupKey l k2 := by
  induction l with
  | nil => simp [setKey, lookupKey, h]
  | cons p rest ih =>
    obtain ⟨k1, v1⟩ := p
    by_cases hk : k1 = k
    · subst hk
      simp [setKey, lookupKey, h, ih]
    · simp [setKey, hk, lookupKey, ih]

/-- The redis string-list keys of the result rendezvous. An entry maps a
key to its list of pending values; the empty list stands for an absent
key. A blocking pop takes the head as soon as one is there (the only case
in which the blocking wait returns), delete empties the key. -/
structure Slots where
  kv : List (String × List String)
deriving Repr, DecidableEq

def Slots.get (s : Slots) (k : String) : List String :=
  match lookupKey s.kv k with
  | some vs => vs
  | none => []

def Slots.rpush (s : Slots) (k : String) (v : String) : Slots :=
  ⟨setKey s.kv k (s.get k ++ [v])⟩

def Slots.blpop (s : Slots) (k : String) : Slots × Option String :=
  match s.get k with
  | [] => (s, none)
  | v :: rest => (⟨setKey s.kv k rest⟩, some v)

def Slots.del (s : Slots) (k : String) : Slots := ⟨setKey s.kv k []⟩

theorem Slots.get_mk_setKey_self (s : Slots) (k : String) (vs : List String) :
    (Slots.mk (setKey s.kv k vs)).get k = vs := by
  simp [Slots.get, lookupKey_setKey_self]

theorem Slots.get_mk_setKey_other (s : Slots) (k k2 : String) (vs : List String) (h : k ≠ k2) :
    (Slots.mk (setKey s.kv k vs)).get k2 = s.get k2 := by
  simp [Slots.get, lookupKey_setKey_other s.kv k k2 vs h]

theorem Slots.get_rpush_self (s : Slots) (k : String) (v : String) :
    (s.rpush k v).get k = s.get k ++ [v] := by
  simp [Slots.rpush, Slots.get, lookupKey_setKey_self]

theorem Slots.get_rpush_other (s : Slots) (k k2 : String) (v : String) (h : k ≠ k2) :
    (s.rpush k v).get k2 = s.get k2 := by
  simp [Slots.rpush, Slots.get, lookupKey_setKey_other s.kv k k2 _ h]

theorem Slots.get_del_self (s : Slots) (k : String) : (s.del k).get k = [] := by
  simp [Slots.del, Slots.get, lookupKey_setKey_self]

theorem Slots.get_del_other (s : Slots) (k k2 : String) (h : k ≠ k2) :
    (s.del k).get k2 = s.get k2 := by
  simp [Slots.del, Slots.get, lookupKey_setKey_other s.kv k k2 _ h]

theorem Slots.blpop_eq (s : Slots) (k : String) (v : String) (rest : List String)
    (h : s.get k = v :: rest) : s.blpop k = (⟨setKey s.kv k rest⟩, some v) := by
  unfold Slots.blpop
  rw [h]

/-- Modelled from the spec: the worker (src/coco/worker.py, absent from the
sources) finishes an invocation by writing the status to key:code first and
then the body to key:res (spec 4.6, Rendezvous). -/
def workerPublish (s : Slots) (key code body : String) : Slots :=
  (s.rpush (key ++ ":code") code).rpush (key ++ ":res") body

/-- The rendezvous consumption of Core.external_endpoint
(src/coco/core.py:475): blpop :code, then blpop :res, then delete :res,
then delete :code. -/
def frontendConsume (s : Slots) (key : String) : Slots × Option (String × String) :=
  match s.blpop (key ++ ":code") with
  | (s1, c) =>
    match s1.blpop (key ++ ":res") with
    | (s2, r) =>
      match c, r with
      | some c, some r => ((s2.del (key ++ ":res")).del (key ++ ":code"), some (c, r))
      | _, _ => ((s2.del (key ++ ":res")).del (key ++ ":code"), none)

/-- The call_on_start consumption of Core._call_endpoints_on_start
(src/coco/core.py:198): blpop :res, then delete :res; the :code slot is
never popped or deleted. -/
def onStartConsume (s : Slots) (key : String) : Slots × Option String :=
  match s.blpop (key ++ ":res") with
  | (s1, r) => (s1.del (key ++ ":res"), r)

theorem code_ne_res (key : String) : key ++ ":code" ≠ key ++ ":res" := by
  intro h
  have hd : (key ++ ":code").data = (key ++ ":res").data := by rw [h]
  rw [String.data_append, String.data_append] at hd
  have := List.append_cancel_left hd
  simp at this

/-- C5 as stated is false on the call_on_start invocation path: after the
worker publishes both result slots, _call_endpoints_on_start pops and
deletes only :res; the :code slot keeps its value and is never consumed. -/
theorem c5_counterexample :
    ((onStartConsume (workerPublish ⟨[]⟩ "k" "200" "done") "k").1.get "k:code" = ["200"])
    ∧ ((onStartConsume (workerPublish ⟨[]⟩ "k" "200" "done") "k").2 = some "done")
    ∧ ((onStartConsume (workerPublish ⟨[]⟩ "k" "200" "done") "k").1.get "k:res" = []) :=
  ⟨by decide, by decide, by decide⟩

/-- C5 (amended): for invocations consumed by external_endpoint the
rendezvous is exact — after the worker writes :code then :res, the single
consumer pops :code before :res, observes exactly the published status and
body, and both slots are deleted. For endpoints invoked with call_on_start
at controller startup only :res is popped and deleted, and the published
:code value is left behind unconsumed. -/
theorem c5_rendezvous (s : Slots) (key code body : String)
    (hcode : s.get (key ++ ":code") = []) (hres : s.get (key ++ ":res") = []) :
    (frontendConsume (workerPublish s key code body) key).2 = some (code, body)
    ∧ (frontendConsume (workerPublish s key code body) key).1.get (key ++ ":code") = []
    ∧ (frontendConsume (workerPublish s key code body) key).1.get (key ++ ":res") = []
    ∧ (onStartConsume (workerPublish s key code body) key).2 = some body
    ∧ (onStartConsume (workerPublish s key code body) key).1.get (key ++ ":res") = []
    ∧ (onStartConsume (workerPublish s key code body) key).1.get (key ++ ":code") = [code] := by
  have hne := code_ne_res key
  have h1 : (workerPublish s key code body).get (key ++ ":code") = [code] := by
    unfold workerPublish
    rw [Slots.get_rpush_other _ _ _ _ (Ne.symm hne), Slots.get_rpush_self, hcode]
    rfl
  have h2 : (workerPublish s key code body).get (key ++ ":res") = [body] := by
    unfold workerPublish
    rw [Slots.get_rpush_self, Slots.get_rpush_other _ _ _ _ hne, hres]
    rfl
  have hb1 := Slots.blpop_eq (workerPublish s key code body) (key ++ ":code") code [] h1
  have hS1res : (Slots.mk (setKey (workerPublish s key code body).kv (key ++ ":code") [])).get
      (key ++ ":res") = [body] := by
    rw [Slots.get_mk_setKey_other (workerPublish s key code body) _ _ _ hne]
    exact h2
  have hb2 := Slots.blpop_eq
    (Slots.mk (setKey (workerPublish s key code body).kv (key ++ ":code") []))
    (key ++ ":res") body [] hS1res
  have hb3 := Slots.blpop_eq (workerPublish s key code body) (key ++ ":res") body [] h2
  refine ⟨?_, ?_, ?_, ?_, ?_, ?_⟩
  · simp only [frontendConsume, hb1, hb2]
  · simp only [frontendConsume, hb1, hb2]
    rw [Slots.get_del_self]
  · simp only [frontendConsume, hb1, hb2]
    rw [Slots.get_del_other _ _ _ hne, Slots.get_del_self]
  · simp only [onStartConsume, hb3]
  · simp only [onStartConsume, hb3]
    rw [Slots.get_del_self]
  · simp only [onStartConsume, hb3]
    rw [Slots.get_del_other _ _ _ (Ne.symm hne),
      Slots.get_mk_setKey_other (workerPublish s key code body) _ _ _ (Ne.symm hne)]
    exact h1

theorem c5_rendezvous_witness :
    (frontendConsume (workerPublish ⟨[]⟩ "k" "200" "done") "k").2 = some ("200", "done")
    ∧ (frontendConsume (workerPublish ⟨[]⟩ "k" "200" "done") "k").1.get ("k" ++ ":code") = []
    ∧ (frontendConsume (workerPublish ⟨[]⟩ "k" "200" "done") "k").1.get ("k" ++ ":res") = []
    ∧ (onStartConsume (workerPublish ⟨[]⟩ "k" "200" "done") "k").2 = some "done"
    ∧ (onStartConsume (workerPublish ⟨[]⟩ "k" "200" "done") "k").1.get ("k" ++ ":res") = []
    ∧ (onStartConsume (workerPublish ⟨[]⟩ "k" "200" "done") "k").1.get ("k" ++ ":code")
        = ["200"] :=
  c5_rendezvous ⟨[]⟩ "k" "200" "done" (by decide) (by decide)

/-- Python values the wait endpoint can meet in a request body. Numbers
are modelled by integers: float() succeeds on them and on numeric strings,
while asyncio.sleep accepts only actual numbers. -/
inductive PyVal where
  | num (i : Int)
  | str (s : String)
  | noneV
deriving Repr, DecidableEq

/-- Whether float(x) succeeds: always on a number, on a string exactly
when it is a numeric literal (digit strings in this model), never on
None. -/
def pyFloatOk : PyVal → Bool
  | .num _ => true
  | .str s => !s.data.isEmpty && s.data.all Char.isDigit
  | .noneV => false

/-- How the wait handler ends. -/
inductive WaitResult where
  | invalidUsage (msg : String)
  | typeError
  | ack
deriving Repr, DecidableEq

/-- wait.process_post (src/coco/wait.py:7): InvalidUsage when "seconds" is
missing or float() on its value fails; otherwise the handler sleeps — on
the raw request value, since the converted float is bound to a local that
is never used — and asyncio.sleep raises TypeError when its delay is not
a number, so a numeric string passes the validation yet still raises. -/
def waitProcessPost (request : List (String × PyVal)) : WaitResult :=
  match lookupKey request "seconds" with
  | none => .invalidUsage "No duration in seconds sent."
  | some v =>
    if pyFloatOk v then
      match v with
      | .num _ => .ack
      | _ => .typeError
    else .invalidUsage "Value for seconds is not a number."

/-- C9 names a code bug: for the body with seconds = "5", whose value does
convert to a number, the claim promises a normal ack after the delay, but
the handler raises TypeError out of asyncio.sleep because the float
conversion result is assigned to a variable that is never used and the
raw string is slept on. The InvalidUsage cases themselves match the
claim. -/
theorem c9_wait_sleep_type_error :
    waitProcessPost [("seconds", PyVal.str "5")] = .typeError
    ∧ waitProcessPost [("seconds", PyVal.num 5)] = .ack
    ∧ waitProcessPost [] = .invalidUsage "No duration in seconds sent."
    ∧ waitProcessPost [("seconds", PyVal.str "abc")]
        = .invalidUsage "Value for seconds is not a number." :=
  ⟨by decide, by decide, by decide, by decide⟩
